import Mathlib

/-!
Verification of the constraint algebra in
`crates/rattler/src/match_spec_constraints.rs`: a DNF constraint set over
two range constraints (version and build number), with intersection,
De Morgan complement, a memoized complement entry point, and containment.

The external collaborator `Range<T>` (from the pubgrub crate) is not part of
the repository sources; following the specification it is modelled here as
the Boolean algebra of finite and cofinite subsets of an infinite value
domain (the naturals stand in for both `Version` and `usize`).  This model
supplies exactly the contract the specification states: `none`, `any`,
`equal`, `intersection`, `negate`, `contains`, structural equality,
`negate (negate x) = x`, commutative/associative/idempotent intersection,
`none` absorbing and `any` neutral for intersection.
-/

/-- Modelled from the spec: the external `Range<T>` interval-set collaborator,
realised as a finite set (`cofinite = false`) or the complement of a finite
set (`cofinite = true`) of values.  Structural equality of this
representation coincides with semantic equality over an infinite domain. -/
structure Range (α : Type) where
  cofinite : Bool
  elems : Finset α
deriving DecidableEq

namespace Range

/-- Modelled from the spec: the empty range. -/
def none {α : Type} : Range α := ⟨false, ∅⟩

/-- Modelled from the spec: the universal range. -/
def any {α : Type} : Range α := ⟨true, ∅⟩

/-- Modelled from the spec: the exact-equality singleton range. -/
def equal {α : Type} (v : α) : Range α := ⟨false, {v}⟩

/-- Modelled from the spec: range intersection, by cases on the
finite/cofinite representations. -/
def intersection {α : Type} [DecidableEq α] (a b : Range α) : Range α :=
  match a.cofinite, b.cofinite with
  | false, false => ⟨false, a.elems ∩ b.elems⟩
  | false, true => ⟨false, a.elems \ b.elems⟩
  | true, false => ⟨false, b.elems \ a.elems⟩
  | true, true => ⟨true, a.elems ∪ b.elems⟩

/-- Modelled from the spec: range negation (set complement). -/
def negate {α : Type} (a : Range α) : Range α := ⟨!a.cofinite, a.elems⟩

/-- Modelled from the spec: range membership test. -/
def contains {α : Type} [DecidableEq α] (a : Range α) (v : α) : Bool :=
  xor (decide (v ∈ a.elems)) a.cofinite

/-- Semantic membership proposition for a modelled range. -/
def Mem {α : Type} (a : Range α) (v : α) : Prop :=
  match a.cofinite with
  | true => v ∉ a.elems
  | false => v ∈ a.elems

instance {α : Type} [DecidableEq α] (a : Range α) (v : α) : Decidable (Mem a v) := by
  unfold Mem
  cases a.cofinite <;> infer_instance

end Range

/-- Modelled from the spec: the external `PackageRecord` data model, consumed
by this module only through an orderable version and an integer build number
(both modelled as naturals). -/
structure PackageRecord where
  version : ℕ
  build_number : ℕ
deriving DecidableEq

/-- Modelled from the spec: a parsed match specification, reduced to the two
fields this module consumes — an optional version range (derived from the
version expression) and an optional exact build-number literal. -/
structure MatchSpec where
  version : Option (Range ℕ)
  build_number : Option ℕ
deriving DecidableEq

/-- A single AND group in a `MatchSpecConstraints`
(struct `MatchSpecElement` in the source). -/
structure MatchSpecElement where
  version : Range ℕ
  build_number : Range ℕ
deriving DecidableEq

namespace MatchSpecElement

/-- Returns an instance that matches nothing (`MatchSpecElement::none`). -/
def none : MatchSpecElement := ⟨Range.none, Range.none⟩

/-- Returns an instance that matches anything (`MatchSpecElement::any`). -/
def any : MatchSpecElement := ⟨Range.any, Range.any⟩

/-- Returns the intersection of this element and another
(`MatchSpecElement::intersection`): component-wise range intersection,
collapsed to the canonical `none` element if either component is empty. -/
def intersection (a b : MatchSpecElement) : MatchSpecElement :=
  let version := a.version.intersection b.version
  let bn := a.build_number.intersection b.build_number
  if version = Range.none ∨ bn = Range.none then MatchSpecElement.none
  else ⟨version, bn⟩

/-- Returns true if the specified package matches this instance
(`MatchSpecElement::contains`). -/
def contains (e : MatchSpecElement) (p : PackageRecord) : Bool :=
  e.version.contains p.version && e.build_number.contains p.build_number

/-- Semantic membership of a package in an element: both coordinates lie in
the respective ranges. -/
def Sat (e : MatchSpecElement) (p : PackageRecord) : Prop :=
  Range.Mem e.version p.version ∧ Range.Mem e.build_number p.build_number

instance (e : MatchSpecElement) (p : PackageRecord) : Decidable (Sat e p) := by
  unfold Sat
  infer_instance

end MatchSpecElement

instance : Std.Commutative Nat.lor := ⟨fun a b => Nat.lor_comm a b⟩

instance : Std.Associative Nat.lor := ⟨fun a b c => Nat.lor_assoc a b c⟩

/-- Injective encoding of a finite set of naturals: the natural number whose
binary digits form the set's characteristic function. -/
def encodeFinset (s : Finset ℕ) : ℕ := s.fold Nat.lor 0 (fun i => 2 ^ i)

/-- Injective encoding of a modelled range. -/
def encodeRange (r : Range ℕ) : ℕ :=
  Nat.pair (cond r.cofinite 1 0) (encodeFinset r.elems)

/-- Modelled from the spec: the deterministic, value-derived sort key used to
canonicalize group order.  The source sorts by a general-purpose hash digest
(`DefaultHasher`); the specification describes the intent as a deterministic
value-derived order, so the digest is modelled as an injective encoding
(i.e. collision-free, which the spec flags as the assumed behavior). -/
def elementKey (e : MatchSpecElement) : ℕ :=
  Nat.pair (encodeRange e.version) (encodeRange e.build_number)

/-- The canonical order on groups: compare sort keys. -/
def keyLE (a b : MatchSpecElement) : Prop := elementKey a ≤ elementKey b

instance : DecidableRel keyLE := fun _ _ => Nat.decLe _ _

instance : IsTrans MatchSpecElement keyLE :=
  ⟨fun _ _ _ h₁ h₂ => Nat.le_trans h₁ h₂⟩

instance : IsTotal MatchSpecElement keyLE :=
  ⟨fun a b => Nat.le_total (elementKey a) (elementKey b)⟩

/-- Canonical listing of a collection of groups: deduplicate (the source
collects groups into a `HashSet`) and sort in the deterministic key order
(the source sorts by cached hash digest). -/
def canon (l : List MatchSpecElement) : List MatchSpecElement :=
  List.insertionSort keyLE l.dedup

/-- Represents several constraints as a DNF
(struct `MatchSpecConstraints` in the source). -/
structure MatchSpecConstraints where
  groups : List MatchSpecElement
deriving DecidableEq

namespace MatchSpecConstraints

/-- Conversion from a parsed match specification
(`impl From<MatchSpec> for MatchSpecConstraints`): one group whose version
range is the spec's version range (or `any` if absent) and whose
build-number range is the exact-equality range of the literal (or `any`). -/
def fromMatchSpec (spec : MatchSpec) : MatchSpecConstraints :=
  ⟨[⟨spec.version.getD Range.any,
     (spec.build_number.map Range.equal).getD Range.any⟩]⟩

/-- Conversion from a single element
(`impl From<MatchSpecElement> for MatchSpecConstraints`). -/
def fromElement (elem : MatchSpecElement) : MatchSpecConstraints := ⟨[elem]⟩

/-- The `Display` implementation: writes the constant string, ignoring the
value entirely. -/
def display (_ : MatchSpecConstraints) : String := "bla"

/-- One step of the De Morgan fold inside
`MatchSpecConstraints::compute_complement`: intersect the accumulated OR-set
with the (up to two) candidate complements of one group, dropping candidates
whose negated range is empty and results equal to the `none` sentinel.  The
source accumulates into a `HashSet`; here the accumulator is a list whose
membership carries the set, with deduplication deferred to `canon`. -/
def complementStep (acc : List MatchSpecElement) (g : MatchSpecElement) :
    List MatchSpecElement :=
  (if g.version.negate = Range.none then []
   else (acc.map fun o => o.intersection ⟨g.version.negate, Range.any⟩).filter
     (fun n => decide (n ≠ MatchSpecElement.none))) ++
  (if g.build_number.negate = Range.none then []
   else (acc.map fun o => o.intersection ⟨Range.any, g.build_number.negate⟩).filter
     (fun n => decide (n ≠ MatchSpecElement.none)))

/-- `MatchSpecConstraints::compute_complement`: the empty set complements to
the single `any` group; otherwise fold the De Morgan step over the groups
starting from the `any` accumulator, then deduplicate and sort the resulting
set by digest. -/
def computeComplement (x : MatchSpecConstraints) : MatchSpecConstraints :=
  if x.groups = [] then ⟨[MatchSpecElement.any]⟩
  else ⟨canon (x.groups.foldl complementStep [MatchSpecElement.any])⟩

/-- `VersionSet::empty`: zero groups. -/
def empty : MatchSpecConstraints := ⟨[]⟩

/-- `VersionSet::full`: one group matching anything. -/
def full : MatchSpecConstraints := ⟨[⟨Range.any, Range.any⟩]⟩

/-- `VersionSet::singleton`: one group pinning both coordinates exactly. -/
def singleton (v : PackageRecord) : MatchSpecConstraints :=
  ⟨[⟨Range.equal v.version, Range.equal v.build_number⟩]⟩

/-- `VersionSet::intersection`: pairwise element intersections, discarding
the `none` sentinel; short-circuit to the single `any` group if any product
equals `any`; otherwise deduplicate and sort by digest. -/
def intersectionProducts (x y : MatchSpecConstraints) : List MatchSpecElement :=
  (x.groups.flatMap fun a => y.groups.map fun b => a.intersection b).filter
    (fun g => decide (g ≠ MatchSpecElement.none))

/-- `VersionSet::intersection` continued: short-circuit to the single `any`
group if any surviving product equals `any`; otherwise deduplicate and sort
by digest. -/
def intersection (x y : MatchSpecConstraints) : MatchSpecConstraints :=
  if MatchSpecElement.any ∈ intersectionProducts x y then ⟨[MatchSpecElement.any]⟩
  else ⟨canon (intersectionProducts x y)⟩

/-- `VersionSet::contains`: true iff any group contains the package. -/
def contains (x : MatchSpecConstraints) (v : PackageRecord) : Bool :=
  x.groups.any fun g => g.contains v

/-- Modelled from the spec: the derived union operation of the external
resolver trait, `complement(intersection(complement(a), complement(b)))`. -/
def union (a b : MatchSpecConstraints) : MatchSpecConstraints :=
  computeComplement (intersection (computeComplement a) (computeComplement b))

/-- Lookup in the modelled complement cache (the process-wide `HashMap`
keyed by constraint-set value, modelled as an association list). -/
def cacheLookup :
    List (MatchSpecConstraints × MatchSpecConstraints) → MatchSpecConstraints →
      Option MatchSpecConstraints
  | [], _ => Option.none
  | (k, v) :: rest, x => if k = x then Option.some v else cacheLookup rest x

/-- `VersionSet::complement`: consult the memoization cache; on a miss,
compute the complement and insert it.  The process-wide cache state is made
explicit: the function returns the result together with the cache after the
call. -/
def complement (x : MatchSpecConstraints)
    (cache : List (MatchSpecConstraints × MatchSpecConstraints)) :
    MatchSpecConstraints × List (MatchSpecConstraints × MatchSpecConstraints) :=
  match cacheLookup cache x with
  | Option.some r => (r, cache)
  | Option.none => (computeComplement x, (x, computeComplement x) :: cache)

/-- Canonical invariants the specification asserts of produced constraint
sets: duplicate-free groups, no `none` sentinel group, and the `any` group
only as the unique group of the full set. -/
def CanonicalInvariants (x : MatchSpecConstraints) : Prop :=
  x.groups.Nodup ∧ MatchSpecElement.none ∉ x.groups ∧
    (MatchSpecElement.any ∈ x.groups → x.groups = [MatchSpecElement.any])

instance : DecidablePred CanonicalInvariants := fun x => by
  unfold CanonicalInvariants
  infer_instance

/-- Every group of the set has nonempty version and build-number components. -/
def ProperGroups (x : MatchSpecConstraints) : Prop :=
  ∀ g ∈ x.groups, g.version ≠ Range.none ∧ g.build_number ≠ Range.none

instance : DecidablePred ProperGroups := fun x => by
  unfold ProperGroups
  infer_instance

/-- The set has at most one group and all groups have nonempty components. -/
def AtMostOneProperGroup (x : MatchSpecConstraints) : Prop :=
  x.groups.length ≤ 1 ∧ ProperGroups x

instance : DecidablePred AtMostOneProperGroup := fun x => by
  unfold AtMostOneProperGroup
  infer_instance

/-- The modelled cache is coherent: every entry maps a key to the value
`compute_complement` produces for it. -/
def WFCache (cache : List (MatchSpecConstraints × MatchSpecConstraints)) : Prop :=
  ∀ kv ∈ cache, kv.2 = computeComplement kv.1

instance : DecidablePred WFCache := fun cache => by
  unfold WFCache
  infer_instance

end MatchSpecConstraints

/-! The development above embeds the data model and operations; everything
below establishes their properties. -/

namespace Range

theorem contains_eq_true_iff_mem {α : Type} [DecidableEq α] (a : Range α) (v : α) :
    contains a v = true ↔ Mem a v := by
  unfold contains Mem
  cases h : a.cofinite <;> simp

theorem mem_none {α : Type} (v : α) : ¬ Mem (none : Range α) v := by
  simp [Mem, none]

theorem mem_any {α : Type} (v : α) : Mem (any : Range α) v := by
  simp [Mem, any]

theorem mem_equal {α : Type} (v w : α) : Mem (equal w) v ↔ v = w := by
  simp [Mem, equal]

theorem mem_intersection {α : Type} [DecidableEq α] (a b : Range α) (v : α) :
    Mem (intersection a b) v ↔ Mem a v ∧ Mem b v := by
  unfold Mem intersection
  cases ha : a.cofinite <;> cases hb : b.cofinite <;>
    (simp [Finset.mem_inter, Finset.mem_sdiff, Finset.mem_union]; try tauto)

theorem mem_negate {α : Type} (a : Range α) (v : α) :
    Mem (negate a) v ↔ ¬ Mem a v := by
  unfold Mem negate
  cases h : a.cofinite <;> simp

/-- Over an infinite domain the finite/cofinite representation is canonical:
two ranges with the same members are structurally equal. -/
theorem ext_mem {α : Type} [DecidableEq α] [Infinite α] {a b : Range α}
    (h : ∀ v, Mem a v ↔ Mem b v) : a = b := by
  obtain ⟨ca, sa⟩ := a
  obtain ⟨cb, sb⟩ := b
  unfold Mem at h
  cases ca <;> cases cb <;> simp only [] at h
  · simp only [Range.mk.injEq, true_and]
    exact Finset.ext fun v => h v
  · exfalso
    obtain ⟨v, hv⟩ := Infinite.exists_not_mem_finset (sa ∪ sb)
    simp only [Finset.mem_union] at hv
    push_neg at hv
    have := (h v).mpr hv.2
    exact hv.1 this
  · exfalso
    obtain ⟨v, hv⟩ := Infinite.exists_not_mem_finset (sa ∪ sb)
    simp only [Finset.mem_union] at hv
    push_neg at hv
    have := (h v).mp hv.1
    exact hv.2 this
  · simp only [Range.mk.injEq, true_and]
    refine Finset.ext fun v => ?_
    rw [← not_iff_not]
    exact h v

theorem negate_negate {α : Type} (a : Range α) : negate (negate a) = a := by
  obtain ⟨c, s⟩ := a
  simp [negate]

theorem negate_eq_none_iff {α : Type} (a : Range α) :
    negate a = none ↔ a = any := by
  obtain ⟨c, s⟩ := a
  cases c <;> simp [negate, none, any]

theorem negate_eq_any_iff {α : Type} (a : Range α) :
    negate a = any ↔ a = none := by
  obtain ⟨c, s⟩ := a
  cases c <;> simp [negate, none, any]

theorem intersection_self {α : Type} [DecidableEq α] (a : Range α) :
    intersection a a = a := by
  obtain ⟨c, s⟩ := a
  cases c <;> simp [intersection]

theorem any_intersection {α : Type} [DecidableEq α] (a : Range α) :
    intersection any a = a := by
  obtain ⟨c, s⟩ := a
  cases c <;> simp [intersection, any]

theorem intersection_any {α : Type} [DecidableEq α] (a : Range α) :
    intersection a any = a := by
  obtain ⟨c, s⟩ := a
  cases c <;> simp [intersection, any]

theorem intersection_negate_self {α : Type} [DecidableEq α] [Infinite α]
    (a b : Range α) : intersection a (intersection b (negate a)) = none := by
  refine ext_mem fun v => ?_
  simp only [mem_intersection, mem_negate]
  have := mem_none (α := α) v
  tauto

theorem intersection_eq_any_iff {α : Type} [DecidableEq α] (a b : Range α) :
    intersection a b = any ↔ a = any ∧ b = any := by
  obtain ⟨ca, sa⟩ := a
  obtain ⟨cb, sb⟩ := b
  cases ca <;> cases cb <;>
    simp [intersection, any, Finset.union_eq_empty]

theorem eq_none_iff_forall {α : Type} [DecidableEq α] [Infinite α] (a : Range α) :
    a = none ↔ ∀ v, ¬ Mem a v := by
  constructor
  · rintro rfl v; exact mem_none v
  · intro h
    refine ext_mem fun v => ?_
    have := mem_none (α := α) v
    tauto

theorem equal_ne_none {α : Type} (v : α) : equal v ≠ none := by
  intro hc
  have := congrArg elems hc
  simp only [equal, none] at this
  exact Finset.singleton_ne_empty v this

theorem ne_none_iff_exists {α : Type} [DecidableEq α] [Infinite α] (a : Range α) :
    a ≠ none ↔ ∃ v, Mem a v := by
  rw [Ne, eq_none_iff_forall]
  push_neg
  rfl

end Range

namespace MatchSpecElement

theorem contains_eq_true_iff_sat (e : MatchSpecElement) (p : PackageRecord) :
    e.contains p = true ↔ Sat e p := by
  unfold contains Sat
  rw [Bool.and_eq_true, Range.contains_eq_true_iff_mem, Range.contains_eq_true_iff_mem]

theorem not_sat_none (p : PackageRecord) : ¬ Sat MatchSpecElement.none p := by
  intro h
  exact Range.mem_none p.version h.1

theorem sat_any (p : PackageRecord) : Sat MatchSpecElement.any p :=
  ⟨Range.mem_any p.version, Range.mem_any p.build_number⟩

theorem sat_intersection (a b : MatchSpecElement) (p : PackageRecord) :
    Sat (a.intersection b) p ↔ Sat a p ∧ Sat b p := by
  unfold intersection
  by_cases h : a.version.intersection b.version = Range.none ∨
      a.build_number.intersection b.build_number = Range.none
  · simp only [if_pos h]
    constructor
    · intro hs
      exact absurd hs (not_sat_none p)
    · rintro ⟨⟨hav, hab⟩, ⟨hbv, hbb⟩⟩
      exfalso
      rcases h with h | h
      · have : Range.Mem (a.version.intersection b.version) p.version :=
          (Range.mem_intersection _ _ _).mpr ⟨hav, hbv⟩
        rw [h] at this
        exact Range.mem_none _ this
      · have : Range.Mem (a.build_number.intersection b.build_number) p.build_number :=
          (Range.mem_intersection _ _ _).mpr ⟨hab, hbb⟩
        rw [h] at this
        exact Range.mem_none _ this
  · simp only [if_neg h]
    unfold Sat
    simp only [Range.mem_intersection]
    tauto

/-- The element intersection either collapses to the `none` sentinel or has
two nonempty components. -/
theorem intersection_none_or_proper (a b : MatchSpecElement) :
    a.intersection b = MatchSpecElement.none ∨
      ((a.intersection b).version ≠ Range.none ∧
        (a.intersection b).build_number ≠ Range.none) := by
  unfold intersection
  by_cases h : a.version.intersection b.version = Range.none ∨
      a.build_number.intersection b.build_number = Range.none
  · exact Or.inl (by simp only [if_pos h])
  · push_neg at h
    refine Or.inr ?_
    simp only [if_neg (by tauto : ¬ (a.version.intersection b.version = Range.none ∨
      a.build_number.intersection b.build_number = Range.none))]
    exact h

/-- Two semantically disjoint elements intersect to the `none` sentinel. -/
theorem intersection_eq_none_of_disjoint (a b : MatchSpecElement)
    (h : ∀ p, ¬ (Sat a p ∧ Sat b p)) : a.intersection b = MatchSpecElement.none := by
  rcases intersection_none_or_proper a b with hn | ⟨hv, hb⟩
  · exact hn
  · exfalso
    have hvne : a.version.intersection b.version ≠ Range.none := by
      unfold intersection at hv
      by_cases hc : a.version.intersection b.version = Range.none ∨
          a.build_number.intersection b.build_number = Range.none
      · exfalso
        rw [if_pos hc] at hv
        exact hv rfl
      · push_neg at hc
        exact hc.1
    have hbne : a.build_number.intersection b.build_number ≠ Range.none := by
      unfold intersection at hb
      by_cases hc : a.version.intersection b.version = Range.none ∨
          a.build_number.intersection b.build_number = Range.none
      · exfalso
        rw [if_pos hc] at hb
        exact hb rfl
      · push_neg at hc
        exact hc.2
    rw [Range.ne_none_iff_exists] at hvne hbne
    obtain ⟨x, hx⟩ := hvne
    obtain ⟨y, hy⟩ := hbne
    rw [Range.mem_intersection] at hx hy
    exact h ⟨x, y⟩ ⟨⟨hx.1, hy.1⟩, ⟨hx.2, hy.2⟩⟩

/-- Once an element is disjoint from `g`, so is any further intersection of it. -/
theorem intersection_disjoint_mono (g o c : MatchSpecElement)
    (h : g.intersection o = MatchSpecElement.none) :
    g.intersection (o.intersection c) = MatchSpecElement.none := by
  refine intersection_eq_none_of_disjoint _ _ fun p hp => ?_
  have ho : Sat o p := ((sat_intersection o c p).mp hp.2).1
  have : Sat (g.intersection o) p := (sat_intersection g o p).mpr ⟨hp.1, ho⟩
  rw [h] at this
  exact not_sat_none p this

end MatchSpecElement

theorem testBit_encodeFinset (s : Finset ℕ) (j : ℕ) :
    (encodeFinset s).testBit j = decide (j ∈ s) := by
  induction s using Finset.induction_on with
  | empty => simp [encodeFinset]
  | insert h ih =>
    rw [encodeFinset, Finset.fold_insert h]
    have hlor : ∀ x y i : ℕ, (Nat.lor x y).testBit i = (x.testBit i || y.testBit i) :=
      fun x y i => Nat.testBit_or x y i
    rw [hlor]
    rw [show Finset.fold Nat.lor 0 (fun i => 2 ^ i) _ = encodeFinset _ from rfl, ih]
    rw [Nat.testBit_two_pow]
    simp [Finset.mem_insert, eq_comm]

theorem encodeFinset_injective : Function.Injective encodeFinset := by
  intro s t h
  refine Finset.ext fun j => ?_
  have := congrArg (fun n => Nat.testBit n j) h
  simp only [testBit_encodeFinset] at this
  simpa using this

theorem encodeRange_injective : Function.Injective encodeRange := by
  intro a b h
  have := congrArg Nat.unpair h
  simp only [encodeRange, Nat.unpair_pair, Prod.mk.injEq] at this
  obtain ⟨c, s⟩ := a
  obtain ⟨d, t⟩ := b
  simp only at this
  have hcd : c = d := by
    cases c <;> cases d <;> simp_all
  rw [Range.mk.injEq]
  exact ⟨hcd, encodeFinset_injective this.2⟩

theorem elementKey_injective : Function.Injective elementKey := by
  intro a b h
  have := congrArg Nat.unpair h
  simp only [elementKey, Nat.unpair_pair, Prod.mk.injEq] at this
  obtain ⟨av, ab⟩ := a
  obtain ⟨bv, bb⟩ := b
  simp only at this
  rw [MatchSpecElement.mk.injEq]
  exact ⟨encodeRange_injective this.1, encodeRange_injective this.2⟩

instance : IsAntisymm MatchSpecElement keyLE :=
  ⟨fun _ _ h₁ h₂ => elementKey_injective (Nat.le_antisymm h₁ h₂)⟩

theorem mem_canon (l : List MatchSpecElement) (a : MatchSpecElement) :
    a ∈ canon l ↔ a ∈ l := by
  rw [canon, List.mem_insertionSort, List.mem_dedup]

theorem canon_nodup (l : List MatchSpecElement) : (canon l).Nodup :=
  (List.perm_insertionSort keyLE l.dedup).nodup_iff.mpr l.nodup_dedup

theorem canon_sorted (l : List MatchSpecElement) :
    List.Sorted keyLE (canon l) := List.sorted_insertionSort keyLE l.dedup

/-- Canonicalization depends only on membership: two lists with the same
elements canonicalize identically.  This captures that the source's
`HashSet` plus digest sort yields a set-determined result. -/
theorem canon_eq_canon_of_mem_iff {l₁ l₂ : List MatchSpecElement}
    (h : ∀ a, a ∈ l₁ ↔ a ∈ l₂) : canon l₁ = canon l₂ := by
  have hp : List.Perm l₁.dedup l₂.dedup := by
    rw [List.perm_ext_iff_of_nodup l₁.nodup_dedup l₂.nodup_dedup]
    intro a
    rw [List.mem_dedup, List.mem_dedup]
    exact h a
  exact List.eq_of_perm_of_sorted
    ((List.perm_insertionSort keyLE l₁.dedup).trans
      (hp.trans (List.perm_insertionSort keyLE l₂.dedup).symm))
    (canon_sorted l₁) (canon_sorted l₂)

theorem canon_nil : canon [] = [] := rfl

theorem canon_singleton (a : MatchSpecElement) : canon [a] = [a] := by
  simp [canon, List.dedup_cons_of_not_mem, List.insertionSort]

theorem canon_length_pair {a b : MatchSpecElement} (h : a ≠ b) :
    (canon [a, b]).length = 2 := by
  rw [canon, List.length_insertionSort]
  rw [List.dedup_cons_of_not_mem (by simpa using h)]
  simp

/-- The canonical listing of a two-element collection is one of its two
orderings. -/
theorem canon_pair {a b : MatchSpecElement} (h : a ≠ b) :
    canon [a, b] = [a, b] ∨ canon [a, b] = [b, a] := by
  obtain ⟨x, y, hxy⟩ := List.length_eq_two.mp (canon_length_pair h)
  have hnd : (canon [a, b]).Nodup := canon_nodup _
  rw [hxy] at hnd
  have hxne : x ≠ y := by
    intro hcon
    rw [hcon] at hnd
    simp at hnd
  have hx : x ∈ [a, b] := by
    rw [← mem_canon, hxy]; simp
  have hy : y ∈ [a, b] := by
    rw [← mem_canon, hxy]; simp
  simp only [List.mem_cons, List.mem_singleton, List.not_mem_nil, or_false] at hx hy
  rcases hx with rfl | rfl
  · rcases hy with rfl | rfl
    · exact absurd rfl hxne
    · exact Or.inl hxy
  · rcases hy with rfl | rfl
    · exact Or.inr hxy
    · exact absurd rfl hxne

namespace MatchSpecConstraints

theorem mem_complementStep {acc : List MatchSpecElement} {g e : MatchSpecElement} :
    e ∈ complementStep acc g ↔
      ((g.version.negate ≠ Range.none ∧ e ≠ MatchSpecElement.none ∧
        ∃ o ∈ acc, o.intersection ⟨g.version.negate, Range.any⟩ = e) ∨
       (g.build_number.negate ≠ Range.none ∧ e ≠ MatchSpecElement.none ∧
        ∃ o ∈ acc, o.intersection ⟨Range.any, g.build_number.negate⟩ = e)) := by
  unfold complementStep
  rw [List.mem_append]
  have hfilter : ∀ (cand : MatchSpecElement),
      e ∈ (acc.map fun o => o.intersection cand).filter
          (fun n => decide (n ≠ MatchSpecElement.none)) ↔
        (e ≠ MatchSpecElement.none ∧ ∃ o ∈ acc, o.intersection cand = e) := by
    intro cand
    rw [List.mem_filter, List.mem_map, decide_eq_true_eq]
    tauto
  by_cases hv : g.version.negate = Range.none <;>
    by_cases hb : g.build_number.negate = Range.none <;>
      simp only [if_pos, if_neg, hv, hb, ite_true, ite_false, List.not_mem_nil,
        hfilter, false_or, or_false, ne_eq, not_true_eq_false, false_and,
        not_false_eq_true, true_and]

/-- Every element produced by one De Morgan step is disjoint from the group
that was just processed. -/
theorem step_kills_group {acc : List MatchSpecElement} {g e : MatchSpecElement}
    (h : e ∈ complementStep acc g) : g.intersection e = MatchSpecElement.none := by
  rcases mem_complementStep.mp h with ⟨_, _, o, _, rfl⟩ | ⟨_, _, o, _, rfl⟩
  · refine MatchSpecElement.intersection_eq_none_of_disjoint _ _ fun p hp => ?_
    have hc : MatchSpecElement.Sat ⟨g.version.negate, Range.any⟩ p :=
      ((MatchSpecElement.sat_intersection _ _ _).mp hp.2).2
    have : ¬ Range.Mem g.version p.version := (Range.mem_negate _ _).mp hc.1
    exact this hp.1.1
  · refine MatchSpecElement.intersection_eq_none_of_disjoint _ _ fun p hp => ?_
    have hc : MatchSpecElement.Sat ⟨Range.any, g.build_number.negate⟩ p :=
      ((MatchSpecElement.sat_intersection _ _ _).mp hp.2).2
    have : ¬ Range.Mem g.build_number p.build_number := (Range.mem_negate _ _).mp hc.2
    exact this hp.1.2

/-- A De Morgan step preserves disjointness from any fixed group. -/
theorem step_preserves_kill {acc : List MatchSpecElement} {g g₂ e : MatchSpecElement}
    (hacc : ∀ o ∈ acc, g.intersection o = MatchSpecElement.none)
    (h : e ∈ complementStep acc g₂) : g.intersection e = MatchSpecElement.none := by
  rcases mem_complementStep.mp h with ⟨_, _, o, ho, rfl⟩ | ⟨_, _, o, ho, rfl⟩
  · exact MatchSpecElement.intersection_disjoint_mono _ _ _ (hacc o ho)
  · exact MatchSpecElement.intersection_disjoint_mono _ _ _ (hacc o ho)

/-- Invariant of the De Morgan fold: every accumulated element is disjoint
from every group already processed. -/
theorem foldl_step_kills (l : List MatchSpecElement) :
    ∀ (acc : List MatchSpecElement) (g : MatchSpecElement),
      (g ∈ l ∨ ∀ o ∈ acc, g.intersection o = MatchSpecElement.none) →
      ∀ e ∈ l.foldl complementStep acc, g.intersection e = MatchSpecElement.none := by
  induction l with
  | nil =>
    intro acc g hg e he
    rcases hg with hg | hg
    · exact absurd hg (List.not_mem_nil g)
    · exact hg e he
  | cons a t ih =>
    intro acc g hg e he
    rw [List.foldl_cons] at he
    rcases hg with hg | hg
    · rcases List.mem_cons.mp hg with rfl | hgt
      · refine ih (complementStep acc g) g (Or.inr ?_) e he
        intro o ho
        exact step_kills_group ho
      · exact ih _ g (Or.inl hgt) e he
    · refine ih (complementStep acc a) g (Or.inr ?_) e he
      intro o ho
      exact step_preserves_kill hg ho

/-- Every group of a complement is (structurally, hence semantically)
disjoint from every group of the input. -/
theorem computeComplement_group_disjoint {x : MatchSpecConstraints}
    {g e : MatchSpecElement} (hg : g ∈ x.groups)
    (he : e ∈ (computeComplement x).groups) :
    g.intersection e = MatchSpecElement.none := by
  unfold computeComplement at he
  by_cases hx : x.groups = []
  · rw [hx] at hg
    exact absurd hg (List.not_mem_nil g)
  · rw [if_neg hx] at he
    simp only [mem_canon] at he
    exact foldl_step_kills x.groups [MatchSpecElement.any] g (Or.inl hg) e he

theorem mem_intersectionProducts {x y : MatchSpecConstraints} {e : MatchSpecElement} :
    e ∈ intersectionProducts x y ↔
      e ≠ MatchSpecElement.none ∧
        ∃ a ∈ x.groups, ∃ b ∈ y.groups, a.intersection b = e := by
  unfold intersectionProducts
  rw [List.mem_filter, decide_eq_true_eq]
  constructor
  · rintro ⟨hm, hd⟩
    rw [List.mem_flatMap] at hm
    obtain ⟨a, ha, hm⟩ := hm
    rw [List.mem_map] at hm
    obtain ⟨b, hb, rfl⟩ := hm
    exact ⟨hd, a, ha, b, hb, rfl⟩
  · rintro ⟨hd, a, ha, b, hb, rfl⟩
    refine ⟨?_, hd⟩
    rw [List.mem_flatMap]
    exact ⟨a, ha, List.mem_map.mpr ⟨b, hb, rfl⟩⟩

/-- If every pairwise product is the sentinel, the intersection is `empty`. -/
theorem intersection_eq_empty_of_products_none {x y : MatchSpecConstraints}
    (h : ∀ a ∈ x.groups, ∀ b ∈ y.groups, a.intersection b = MatchSpecElement.none) :
    intersection x y = empty := by
  have hprod : intersectionProducts x y = [] := by
    rw [List.eq_nil_iff_forall_not_mem]
    intro e he
    rw [mem_intersectionProducts] at he
    obtain ⟨hne, a, ha, b, hb, hab⟩ := he
    exact hne (hab ▸ h a ha b hb)
  unfold intersection
  rw [hprod]
  simp only [List.not_mem_nil, if_false, ite_false]
  rfl

/-- The key disjointness fact: every set intersected with its computed
complement collapses to `empty`. -/
theorem intersection_with_computeComplement (x : MatchSpecConstraints) :
    intersection x (computeComplement x) = empty :=
  intersection_eq_empty_of_products_none fun _ ha _ hb =>
    computeComplement_group_disjoint ha hb

theorem computeComplement_empty_eq_full : computeComplement empty = full := rfl

/-- C2: for every constraint set `x`, `intersection(x, complement(x))` is
`empty()`, and the derived `union(x, complement(x))` — defined as
`complement(intersection(complement(a), complement(b)))` — is `full()`. -/
theorem intersection_and_union_with_complement (x : MatchSpecConstraints) :
    intersection x (computeComplement x) = empty ∧
      union x (computeComplement x) = full := by
  refine ⟨intersection_with_computeComplement x, ?_⟩
  unfold union
  rw [intersection_with_computeComplement (computeComplement x)]
  exact computeComplement_empty_eq_full

/-- C4: `contains(S, p)` is true iff some group of `S` contains `p`, where a
group contains `p` iff p's version lies in the group's version range and
p's build number lies in the group's build-number range; in particular
`contains(empty(), p)` is false and `contains(full(), p)` is true. -/
theorem contains_dnf_semantics (x : MatchSpecConstraints) (p : PackageRecord) :
    (contains x p = true ↔
      ∃ g ∈ x.groups,
        Range.Mem g.version p.version ∧ Range.Mem g.build_number p.build_number) ∧
      contains empty p = false ∧ contains full p = true := by
  refine ⟨?_, rfl, ?_⟩
  · unfold contains
    rw [List.any_eq_true]
    constructor
    · rintro ⟨g, hg, hc⟩
      exact ⟨g, hg, (MatchSpecElement.contains_eq_true_iff_sat g p).mp hc⟩
    · rintro ⟨g, hg, hs⟩
      exact ⟨g, hg, (MatchSpecElement.contains_eq_true_iff_sat g p).mpr hs⟩
  · show (full.groups.any fun g => g.contains p) = true
    rw [List.any_eq_true]
    exact ⟨MatchSpecElement.any, List.mem_singleton_self _,
      (MatchSpecElement.contains_eq_true_iff_sat _ p).mpr (MatchSpecElement.sat_any p)⟩

/-- C5: every package is contained in its singleton constraint set and not
contained in the complement of that singleton. -/
theorem singleton_contains_and_complement_excludes (p : PackageRecord) :
    contains (singleton p) p = true ∧
      contains (computeComplement (singleton p)) p = false := by
  have hsat : MatchSpecElement.Sat
      ⟨Range.equal p.version, Range.equal p.build_number⟩ p :=
    ⟨(Range.mem_equal _ _).mpr rfl, (Range.mem_equal _ _).mpr rfl⟩
  constructor
  · show ((singleton p).groups.any fun g => g.contains p) = true
    rw [List.any_eq_true]
    exact ⟨_, List.mem_singleton_self _,
      (MatchSpecElement.contains_eq_true_iff_sat _ p).mpr hsat⟩
  · rw [Bool.eq_false_iff]
    intro h
    unfold contains at h
    rw [List.any_eq_true] at h
    obtain ⟨e, he, hc⟩ := h
    have hd := computeComplement_group_disjoint
      (x := singleton p) (List.mem_singleton_self _) he
    have hse : MatchSpecElement.Sat e p :=
      (MatchSpecElement.contains_eq_true_iff_sat e p).mp hc
    have : MatchSpecElement.Sat
        (MatchSpecElement.intersection ⟨Range.equal p.version, Range.equal p.build_number⟩ e) p :=
      (MatchSpecElement.sat_intersection _ _ _).mpr ⟨hsat, hse⟩
    rw [hd] at this
    exact MatchSpecElement.not_sat_none p this

/-- C6: the complement of the empty constraint set (zero groups) is the set
whose groups are exactly the one `any()` element, i.e. the full set. -/
theorem complement_of_empty_is_full :
    computeComplement empty = full ∧ full.groups = [MatchSpecElement.any] :=
  ⟨rfl, rfl⟩

/-- C10: the `Display` rendering of every constraint set is the constant
string `"bla"`, independent of the set's contents. -/
theorem display_constant (x : MatchSpecConstraints) : display x = "bla" := rfl

theorem cacheLookup_eq_some {cache : List (MatchSpecConstraints × MatchSpecConstraints)}
    {x r : MatchSpecConstraints} (hwf : WFCache cache)
    (h : cacheLookup cache x = Option.some r) : r = computeComplement x := by
  induction cache with
  | nil => exact absurd h (by rw [cacheLookup]; exact Option.noConfusion)
  | cons kv rest ih =>
    obtain ⟨k, v⟩ := kv
    rw [cacheLookup] at h
    by_cases hk : k = x
    · rw [if_pos hk] at h
      have hv : v = r := Option.some.injEq _ _ ▸ h
      have hk2 : v = computeComplement k := hwf (k, v) (List.mem_cons_self _ _)
      rw [← hv, hk2, hk]
    · rw [if_neg hk] at h
      exact ih (fun kv hkv => hwf kv (List.mem_cons_of_mem _ hkv)) h

/-- C9: for any coherent cache state, the memoized `complement` entry point
returns exactly the value `compute_complement` produces for its input, and
leaves the cache coherent; hence two calls on value-equal constraint sets
return value-equal results regardless of call order or of the prior
contents of the cache. -/
theorem complement_cache_correct
    (cache : List (MatchSpecConstraints × MatchSpecConstraints))
    (x : MatchSpecConstraints) (hwf : WFCache cache) :
    (complement x cache).1 = computeComplement x ∧
      WFCache (complement x cache).2 := by
  unfold complement
  cases hl : cacheLookup cache x with
  | none =>
    refine ⟨rfl, ?_⟩
    intro kv hkv
    rcases List.mem_cons.mp hkv with rfl | hkv
    · rfl
    · exact hwf kv hkv
  | some r =>
    exact ⟨cacheLookup_eq_some hwf hl, hwf⟩

theorem complement_cache_correct_witness :
    WFCache [] ∧
      ((complement empty []).1 = computeComplement empty ∧
        WFCache (complement empty []).2) :=
  ⟨by decide, complement_cache_correct [] empty (by decide)⟩

theorem intersection_self_of_proper_element {g : MatchSpecElement}
    (hv : g.version ≠ Range.none) (hb : g.build_number ≠ Range.none) :
    g.intersection g = g := by
  unfold MatchSpecElement.intersection
  rw [Range.intersection_self, Range.intersection_self,
    if_neg (by rw [not_or]; exact ⟨hv, hb⟩)]

theorem ne_none_of_proper_element {g : MatchSpecElement}
    (hv : g.version ≠ Range.none) : g ≠ MatchSpecElement.none := by
  intro hg
  exact hv (by rw [hg]; rfl)

/-- Self-intersection returns a one-group set unchanged when the group has
nonempty components. -/
theorem intersection_self_single {g : MatchSpecElement}
    (hv : g.version ≠ Range.none) (hb : g.build_number ≠ Range.none) :
    intersection ⟨[g]⟩ ⟨[g]⟩ = (⟨[g]⟩ : MatchSpecConstraints) := by
  have hgg : g.intersection g = g := intersection_self_of_proper_element hv hb
  have hgs : g ≠ MatchSpecElement.none := ne_none_of_proper_element hv
  have hprod : intersectionProducts ⟨[g]⟩ ⟨[g]⟩ = [g] := by
    unfold intersectionProducts
    simp [hgg, hgs]
  unfold intersection
  rw [hprod]
  by_cases hga : g = MatchSpecElement.any
  · rw [if_pos (by rw [hga]; exact List.mem_singleton_self _)]
    rw [hga]
  · rw [if_neg (by
      intro hmem
      exact hga ((List.mem_singleton.mp hmem).symm))]
    rw [canon_singleton]

/-- C3 counterexample: a two-group set produced by `complement` whose
self-intersection gains the extra cross product and is not the set itself. -/
theorem intersection_idempotent_fails :
    (computeComplement ⟨[⟨⟨true, {0}⟩, ⟨true, {0}⟩⟩]⟩).groups.length = 2 ∧
      intersection (computeComplement ⟨[⟨⟨true, {0}⟩, ⟨true, {0}⟩⟩]⟩)
          (computeComplement ⟨[⟨⟨true, {0}⟩, ⟨true, {0}⟩⟩]⟩) ≠
        computeComplement ⟨[⟨⟨true, {0}⟩, ⟨true, {0}⟩⟩]⟩ := by decide

/-- C3 (amended): `intersection(x, x) = x` holds for every constraint set
with at most one group whose version and build-number components are
nonempty; for two-or-more-group sets (such as complements) it can fail. -/
theorem intersection_idempotent_on_small_sets (x : MatchSpecConstraints)
    (h : AtMostOneProperGroup x) : intersection x x = x := by
  obtain ⟨hlen, hprop⟩ := h
  obtain ⟨gs⟩ := x
  cases gs with
  | nil => decide
  | cons g t =>
    cases t with
    | nil =>
      have hp := hprop g (List.mem_singleton_self g)
      exact intersection_self_single hp.1 hp.2
    | cons g₂ t₂ =>
      exfalso
      simp only [ProperGroups, List.length_cons] at hlen
      omega

theorem intersection_idempotent_witness :
    AtMostOneProperGroup full ∧ intersection full full = full :=
  ⟨by decide, intersection_idempotent_on_small_sets full (by decide)⟩

/-- C7 counterexample: when the shared version range is the empty range, the
cross intersection is `empty` as claimed, but the self-intersection also
collapses to `empty` instead of returning the one-group set unchanged. -/
theorem build_number_disjoint_specs_fails :
    intersection (fromMatchSpec ⟨Option.some ⟨false, ∅⟩, Option.some 1⟩)
        (fromMatchSpec ⟨Option.some ⟨false, ∅⟩, Option.some 2⟩) = empty ∧
      intersection (fromMatchSpec ⟨Option.some ⟨false, ∅⟩, Option.some 1⟩)
          (fromMatchSpec ⟨Option.some ⟨false, ∅⟩, Option.some 1⟩) ≠
        fromMatchSpec ⟨Option.some ⟨false, ∅⟩, Option.some 1⟩ := by decide

/-- C7 (amended): for two one-group sets built from match specifications with
the same version range — provided it is not the empty range — and distinct
exact build-number literals, the intersection is `empty()` and each
self-intersection returns the original set unchanged. -/
theorem build_number_disjoint_specs (v : Option (Range ℕ)) (n₁ n₂ : ℕ)
    (hv : v ≠ Option.some Range.none) (hn : n₁ ≠ n₂) :
    intersection (fromMatchSpec ⟨v, Option.some n₁⟩)
        (fromMatchSpec ⟨v, Option.some n₂⟩) = empty ∧
      intersection (fromMatchSpec ⟨v, Option.some n₁⟩)
          (fromMatchSpec ⟨v, Option.some n₁⟩) =
        fromMatchSpec ⟨v, Option.some n₁⟩ := by
  have hr : v.getD Range.any ≠ Range.none := by
    cases v with
    | none =>
      intro hc
      exact Bool.noConfusion (congrArg Range.cofinite hc)
    | some s =>
      intro hc
      exact hv (by rw [Option.getD] at hc; rw [hc])
  have hb : ∀ n : ℕ, Range.equal n ≠ (Range.none : Range ℕ) := by
    intro n hc
    have := congrArg Range.elems hc
    simp [Range.equal, Range.none] at this
  constructor
  · refine intersection_eq_empty_of_products_none fun a ha b hb => ?_
    rw [List.mem_singleton.mp ha, List.mem_singleton.mp hb]
    unfold MatchSpecElement.intersection
    rw [if_pos]
    right
    show (Range.equal n₁).intersection (Range.equal n₂) = Range.none
    unfold Range.intersection Range.equal
    simp only []
    rw [Range.none, Range.mk.injEq]
    refine ⟨rfl, ?_⟩
    rw [Finset.singleton_inter_of_not_mem (by simpa using hn)]
  · exact intersection_self_single hr (hb n₁)

theorem any_range_ne_none : (Range.any : Range ℕ) ≠ Range.none := by
  intro hc
  exact Bool.noConfusion (congrArg Range.cofinite hc)

theorem ne_none_of_proper_build {g : MatchSpecElement}
    (hb : g.build_number ≠ Range.none) : g ≠ MatchSpecElement.none := by
  intro hg
  exact hb (by rw [hg]; rfl)

/-- The `any` element is neutral for element intersection on elements with
nonempty components. -/
theorem any_elt_intersection {e : MatchSpecElement}
    (hv : e.version ≠ Range.none) (hb : e.build_number ≠ Range.none) :
    MatchSpecElement.any.intersection e = e := by
  obtain ⟨v, b⟩ := e
  unfold MatchSpecElement.intersection MatchSpecElement.any
  dsimp only
  rw [Range.any_intersection, Range.any_intersection,
    if_neg (by rw [not_or]; exact ⟨hv, hb⟩)]

theorem velt_int_belt {v b : Range ℕ} (hv : v ≠ Range.none) (hb : b ≠ Range.none) :
    (⟨v, Range.any⟩ : MatchSpecElement).intersection ⟨Range.any, b⟩ = ⟨v, b⟩ := by
  unfold MatchSpecElement.intersection
  dsimp only
  rw [Range.intersection_any, Range.any_intersection,
    if_neg (by rw [not_or]; exact ⟨hv, hb⟩)]

theorem belt_int_velt {v b : Range ℕ} (hv : v ≠ Range.none) (hb : b ≠ Range.none) :
    (⟨Range.any, b⟩ : MatchSpecElement).intersection ⟨v, Range.any⟩ = ⟨v, b⟩ := by
  unfold MatchSpecElement.intersection
  dsimp only
  rw [Range.any_intersection, Range.intersection_any,
    if_neg (by rw [not_or]; exact ⟨hv, hb⟩)]

/-- A De Morgan step over a version-only group keeps only the version
candidate. -/
theorem complementStep_velt (acc : List MatchSpecElement) (w : Range ℕ)
    (hw : w.negate ≠ Range.none) :
    complementStep acc ⟨w, Range.any⟩ =
      (acc.map fun o => o.intersection ⟨w.negate, Range.any⟩).filter
        (fun n => decide (n ≠ MatchSpecElement.none)) := by
  unfold complementStep
  dsimp only
  rw [if_neg hw, if_pos (show (Range.any : Range ℕ).negate = Range.none from rfl),
    List.append_nil]

/-- A De Morgan step over a build-only group keeps only the build candidate. -/
theorem complementStep_belt (acc : List MatchSpecElement) (w : Range ℕ)
    (hw : w.negate ≠ Range.none) :
    complementStep acc ⟨Range.any, w⟩ =
      (acc.map fun o => o.intersection ⟨Range.any, w.negate⟩).filter
        (fun n => decide (n ≠ MatchSpecElement.none)) := by
  unfold complementStep
  dsimp only
  rw [if_neg hw, if_pos (show (Range.any : Range ℕ).negate = Range.none from rfl),
    List.nil_append]

theorem filter_not_none_singleton {e : MatchSpecElement} (h : e ≠ MatchSpecElement.none) :
    [e].filter (fun n => decide (n ≠ MatchSpecElement.none)) = [e] := by
  rw [List.filter_cons, if_pos (by rw [decide_eq_true_eq]; exact h)]
  rfl

/-- Negated ranges of a proper, non-universal range are again proper and
non-universal. -/
theorem negate_proper {v : Range ℕ} (hvn : v ≠ Range.none) (hva : v ≠ Range.any) :
    v.negate ≠ Range.none ∧ v.negate ≠ Range.any :=
  ⟨fun hc => hva ((Range.negate_eq_none_iff v).mp hc),
    fun hc => hvn ((Range.negate_eq_any_iff v).mp hc)⟩

/-- Complement of a one-group, version-only constraint set. -/
theorem computeComplement_vonly {v : Range ℕ} (hvn : v ≠ Range.none) (hva : v ≠ Range.any) :
    computeComplement ⟨[⟨v, Range.any⟩]⟩ = ⟨[⟨v.negate, Range.any⟩]⟩ := by
  unfold computeComplement
  rw [if_neg (by simp)]
  rw [show ([⟨v, Range.any⟩] : List MatchSpecElement).foldl complementStep
      [MatchSpecElement.any] = complementStep [MatchSpecElement.any] ⟨v, Range.any⟩ from rfl]
  rw [complementStep_velt _ v (fun hc => hva ((Range.negate_eq_none_iff v).mp hc))]
  rw [List.map_singleton]
  rw [any_elt_intersection (negate_proper hvn hva).1 any_range_ne_none]
  rw [filter_not_none_singleton (ne_none_of_proper_build any_range_ne_none)]
  rw [canon_singleton]

/-- Complement of a one-group, build-only constraint set. -/
theorem computeComplement_bonly {b : Range ℕ} (hbn : b ≠ Range.none) (hba : b ≠ Range.any) :
    computeComplement ⟨[⟨Range.any, b⟩]⟩ = ⟨[⟨Range.any, b.negate⟩]⟩ := by
  unfold computeComplement
  rw [if_neg (by simp)]
  rw [show ([⟨Range.any, b⟩] : List MatchSpecElement).foldl complementStep
      [MatchSpecElement.any] = complementStep [MatchSpecElement.any] ⟨Range.any, b⟩ from rfl]
  rw [complementStep_belt _ b (fun hc => hba ((Range.negate_eq_none_iff b).mp hc))]
  rw [List.map_singleton]
  rw [any_elt_intersection any_range_ne_none (negate_proper hbn hba).1]
  rw [filter_not_none_singleton (ne_none_of_proper_element any_range_ne_none)]
  rw [canon_singleton]

/-- Complement of a one-group set whose two components are both proper and
non-universal: the two-candidate De Morgan expansion, canonicalized. -/
theorem computeComplement_single_vb {v b : Range ℕ}
    (hvn : v ≠ Range.none) (hva : v ≠ Range.any)
    (hbn : b ≠ Range.none) (hba : b ≠ Range.any) :
    computeComplement ⟨[⟨v, b⟩]⟩ =
      ⟨canon [⟨v.negate, Range.any⟩, ⟨Range.any, b.negate⟩]⟩ := by
  unfold computeComplement
  rw [if_neg (by simp)]
  rw [show ([⟨v, b⟩] : List MatchSpecElement).foldl complementStep
      [MatchSpecElement.any] = complementStep [MatchSpecElement.any] ⟨v, b⟩ from rfl]
  unfold complementStep
  dsimp only
  rw [if_neg (fun hc => hva ((Range.negate_eq_none_iff v).mp hc)),
    if_neg (fun hc => hba ((Range.negate_eq_none_iff b).mp hc))]
  rw [List.map_singleton, List.map_singleton]
  rw [any_elt_intersection (negate_proper hvn hva).1 any_range_ne_none]
  rw [any_elt_intersection any_range_ne_none (negate_proper hbn hba).1]
  rw [filter_not_none_singleton (ne_none_of_proper_build any_range_ne_none)]
  rw [filter_not_none_singleton (ne_none_of_proper_element any_range_ne_none)]
  rfl

/-- Complement of the two-candidate De Morgan pair, version candidate first:
recovers the original one-group set. -/
theorem computeComplement_pair_ve_be {v b : Range ℕ}
    (hvn : v ≠ Range.none) (hbn : b ≠ Range.none) :
    computeComplement ⟨[⟨v.negate, Range.any⟩, ⟨Range.any, b.negate⟩]⟩ =
      ⟨[⟨v, b⟩]⟩ := by
  unfold computeComplement
  rw [if_neg (by simp)]
  rw [show ([⟨v.negate, Range.any⟩, ⟨Range.any, b.negate⟩] : List MatchSpecElement).foldl
      complementStep [MatchSpecElement.any] =
      complementStep (complementStep [MatchSpecElement.any] ⟨v.negate, Range.any⟩)
        ⟨Range.any, b.negate⟩ from rfl]
  rw [complementStep_velt _ _ (by rw [Range.negate_negate]; exact hvn)]
  rw [List.map_singleton, Range.negate_negate]
  rw [any_elt_intersection hvn any_range_ne_none]
  rw [filter_not_none_singleton (ne_none_of_proper_build any_range_ne_none)]
  rw [complementStep_belt _ _ (by rw [Range.negate_negate]; exact hbn)]
  rw [List.map_singleton, Range.negate_negate]
  rw [velt_int_belt hvn hbn]
  rw [filter_not_none_singleton (ne_none_of_proper_element hvn)]
  rw [canon_singleton]

/-- Complement of the two-candidate De Morgan pair, build candidate first:
recovers the original one-group set. -/
theorem computeComplement_pair_be_ve {v b : Range ℕ}
    (hvn : v ≠ Range.none) (hbn : b ≠ Range.none) :
    computeComplement ⟨[⟨Range.any, b.negate⟩, ⟨v.negate, Range.any⟩]⟩ =
      ⟨[⟨v, b⟩]⟩ := by
  unfold computeComplement
  rw [if_neg (by simp)]
  rw [show ([⟨Range.any, b.negate⟩, ⟨v.negate, Range.any⟩] : List MatchSpecElement).foldl
      complementStep [MatchSpecElement.any] =
      complementStep (complementStep [MatchSpecElement.any] ⟨Range.any, b.negate⟩)
        ⟨v.negate, Range.any⟩ from rfl]
  rw [complementStep_belt _ _ (by rw [Range.negate_negate]; exact hbn)]
  rw [List.map_singleton, Range.negate_negate]
  rw [any_elt_intersection any_range_ne_none hbn]
  rw [filter_not_none_singleton (ne_none_of_proper_element any_range_ne_none)]
  rw [complementStep_velt _ _ (by rw [Range.negate_negate]; exact hvn)]
  rw [List.map_singleton, Range.negate_negate]
  rw [belt_int_velt hvn hbn]
  rw [filter_not_none_singleton (ne_none_of_proper_element hvn)]
  rw [canon_singleton]

/-- Double complement is the identity on constraint sets with at most one
group with nonempty components. -/
theorem computeComplement_computeComplement_small (x : MatchSpecConstraints)
    (h : AtMostOneProperGroup x) :
    computeComplement (computeComplement x) = x := by
  obtain ⟨hlen, hprop⟩ := h
  obtain ⟨gs⟩ := x
  cases gs with
  | nil => decide
  | cons g t =>
    cases t with
    | cons g₂ t₂ =>
      exfalso
      simp only [List.length_cons] at hlen
      omega
    | nil =>
      obtain ⟨hv, hb⟩ := hprop g (List.mem_singleton_self g)
      obtain ⟨v, b⟩ := g
      by_cases hva : v = Range.any
      · by_cases hba : b = Range.any
        · subst hva
          subst hba
          decide
        · subst hva
          rw [computeComplement_bonly hb hba]
          rw [computeComplement_bonly (negate_proper hb hba).1 (negate_proper hb hba).2]
          rw [Range.negate_negate]
      · by_cases hba : b = Range.any
        · subst hba
          rw [computeComplement_vonly hv hva]
          rw [computeComplement_vonly (negate_proper hv hva).1 (negate_proper hv hva).2]
          rw [Range.negate_negate]
        · rw [computeComplement_single_vb hv hva hb hba]
          have h12 : (⟨v.negate, Range.any⟩ : MatchSpecElement) ≠ ⟨Range.any, b.negate⟩ := by
            intro hc
            exact (negate_proper hv hva).2 (congrArg MatchSpecElement.version hc)
          rcases canon_pair h12 with hcp | hcp <;> rw [hcp]
          · exact computeComplement_pair_ve_be hv hb
          · exact computeComplement_pair_be_ve hv hb

/-- C1 counterexample: a duplicate-free, sentinel-free two-group set with
nonempty components on which both claimed identities fail — the fourth
complement is not the set and the third complement is not the first. -/
theorem complement_identities_fail :
    computeComplement (computeComplement (computeComplement (computeComplement
        ⟨[⟨⟨false, {0}⟩, ⟨false, {0}⟩⟩, ⟨⟨false, {0}⟩, ⟨false, {1}⟩⟩]⟩))) ≠
      ⟨[⟨⟨false, {0}⟩, ⟨false, {0}⟩⟩, ⟨⟨false, {0}⟩, ⟨false, {1}⟩⟩]⟩ ∧
    computeComplement (computeComplement (computeComplement
        ⟨[⟨⟨false, {0}⟩, ⟨false, {0}⟩⟩, ⟨⟨false, {0}⟩, ⟨false, {1}⟩⟩]⟩)) ≠
      computeComplement
        ⟨[⟨⟨false, {0}⟩, ⟨false, {0}⟩⟩, ⟨⟨false, {0}⟩, ⟨false, {1}⟩⟩]⟩ := by
  constructor
  · decide
  · decide

/-- C1 (amended): on constraint sets with at most one group with nonempty
components — which includes `empty()`, `full()`, every `singleton`, and
every conversion of a match specification with a nonempty version range —
the double complement is the identity, hence the fourth complement returns
the set and the third complement equals the first.  On two-or-more-group
sets both identities can fail. -/
theorem complement_identities_on_small_sets (x : MatchSpecConstraints)
    (h : AtMostOneProperGroup x) :
    computeComplement (computeComplement (computeComplement (computeComplement x))) = x ∧
      computeComplement (computeComplement (computeComplement x)) = computeComplement x := by
  have h2 := computeComplement_computeComplement_small x h
  constructor
  · rw [h2, h2]
  · rw [h2]

theorem complement_identities_witness :
    AtMostOneProperGroup (singleton ⟨1, 2⟩) ∧
      (computeComplement (computeComplement (computeComplement (computeComplement
          (singleton ⟨1, 2⟩)))) = singleton ⟨1, 2⟩ ∧
        computeComplement (computeComplement (computeComplement (singleton ⟨1, 2⟩))) =
          computeComplement (singleton ⟨1, 2⟩)) :=
  ⟨by decide, complement_identities_on_small_sets (singleton ⟨1, 2⟩) (by decide)⟩

/-- Every element surviving a De Morgan step is neither the sentinel nor
improper: both its components are nonempty. -/
theorem mem_step_proper {acc : List MatchSpecElement} {g e : MatchSpecElement}
    (he : e ∈ complementStep acc g) :
    e ≠ MatchSpecElement.none ∧ e.version ≠ Range.none ∧
      e.build_number ≠ Range.none := by
  rcases mem_complementStep.mp he with ⟨_, hne, o, _, rfl⟩ | ⟨_, hne, o, _, rfl⟩
  · rcases MatchSpecElement.intersection_none_or_proper o
      ⟨g.version.negate, Range.any⟩ with hs | hp
    · exact absurd hs hne
    · exact ⟨hne, hp⟩
  · rcases MatchSpecElement.intersection_none_or_proper o
      ⟨Range.any, g.build_number.negate⟩ with hs | hp
    · exact absurd hs hne
    · exact ⟨hne, hp⟩

/-- Every element of a nonempty De Morgan fold is sentinel-free and proper,
independent of the initial accumulator. -/
theorem mem_foldl_step_proper :
    ∀ (l : List MatchSpecElement) (acc : List MatchSpecElement), l ≠ [] →
      ∀ e ∈ l.foldl complementStep acc,
        e ≠ MatchSpecElement.none ∧ e.version ≠ Range.none ∧
          e.build_number ≠ Range.none := by
  intro l
  induction l with
  | nil => intro acc hl; exact absurd rfl hl
  | cons a t ih =>
    intro acc _ e he
    rw [List.foldl_cons] at he
    cases t with
    | nil => exact mem_step_proper he
    | cons b u => exact ih (complementStep acc a) (List.cons_ne_nil b u) e he

theorem any_elt_ne_none_elt : MatchSpecElement.any ≠ MatchSpecElement.none := by
  intro hc
  exact any_range_ne_none (congrArg MatchSpecElement.version hc)

/-- No De Morgan step over a group with nonempty components can produce the
universal element. -/
theorem any_not_mem_step {acc : List MatchSpecElement} {g : MatchSpecElement}
    (hgv : g.version ≠ Range.none) (hgb : g.build_number ≠ Range.none) :
    MatchSpecElement.any ∉ complementStep acc g := by
  intro hmem
  rcases mem_complementStep.mp hmem with ⟨_, _, o, _, heq⟩ | ⟨_, _, o, _, heq⟩
  · unfold MatchSpecElement.intersection at heq
    by_cases hc : o.version.intersection
        (⟨g.version.negate, Range.any⟩ : MatchSpecElement).version = Range.none ∨
        o.build_number.intersection
          (⟨g.version.negate, Range.any⟩ : MatchSpecElement).build_number = Range.none
    · rw [if_pos hc] at heq
      exact any_elt_ne_none_elt heq.symm
    · rw [if_neg hc] at heq
      have hver := congrArg MatchSpecElement.version heq
      have := (Range.intersection_eq_any_iff _ _).mp hver
      exact hgv ((Range.negate_eq_any_iff g.version).mp this.2)
  · unfold MatchSpecElement.intersection at heq
    by_cases hc : o.version.intersection
        (⟨Range.any, g.build_number.negate⟩ : MatchSpecElement).version = Range.none ∨
        o.build_number.intersection
          (⟨Range.any, g.build_number.negate⟩ : MatchSpecElement).build_number = Range.none
    · rw [if_pos hc] at heq
      exact any_elt_ne_none_elt heq.symm
    · rw [if_neg hc] at heq
      have hbld := congrArg MatchSpecElement.build_number heq
      have := (Range.intersection_eq_any_iff _ _).mp hbld
      exact hgb ((Range.negate_eq_any_iff g.build_number).mp this.2)

/-- The universal element never appears in a nonempty De Morgan fold over
groups with nonempty components. -/
theorem any_not_mem_foldl :
    ∀ (l : List MatchSpecElement) (acc : List MatchSpecElement), l ≠ [] →
      (∀ g ∈ l, g.version ≠ Range.none ∧ g.build_number ≠ Range.none) →
      MatchSpecElement.any ∉ l.foldl complementStep acc := by
  intro l
  induction l with
  | nil => intro acc hl; exact absurd rfl hl
  | cons a t ih =>
    intro acc _ hp
    rw [List.foldl_cons]
    cases t with
    | nil =>
      have ha := hp a (List.mem_singleton_self a)
      exact any_not_mem_step ha.1 ha.2
    | cons b u =>
      exact ih (complementStep acc a) (List.cons_ne_nil b u)
        (fun g hg => hp g (List.mem_cons_of_mem a hg))

theorem properGroups_intersection (x y : MatchSpecConstraints) :
    ProperGroups (intersection x y) := by
  unfold intersection
  by_cases hc : MatchSpecElement.any ∈ intersectionProducts x y
  · rw [if_pos hc]
    intro g hg
    rw [List.mem_singleton.mp hg]
    exact ⟨any_range_ne_none, any_range_ne_none⟩
  · rw [if_neg hc]
    intro g hg
    rw [mem_canon] at hg
    obtain ⟨hne, a, _, b, _, hab⟩ := mem_intersectionProducts.mp hg
    rcases MatchSpecElement.intersection_none_or_proper a b with hs | hp
    · rw [hab] at hs
      exact absurd hs hne
    · rw [hab] at hp
      exact hp

theorem properGroups_computeComplement (x : MatchSpecConstraints) :
    ProperGroups (computeComplement x) := by
  unfold computeComplement
  by_cases hx : x.groups = []
  · rw [if_pos hx]
    intro g hg
    rw [List.mem_singleton.mp hg]
    exact ⟨any_range_ne_none, any_range_ne_none⟩
  · rw [if_neg hx]
    intro g hg
    rw [mem_canon] at hg
    exact (mem_foldl_step_proper x.groups [MatchSpecElement.any] hx g hg).2

theorem canonicalInvariants_intersection (x y : MatchSpecConstraints) :
    CanonicalInvariants (intersection x y) := by
  unfold intersection
  by_cases hc : MatchSpecElement.any ∈ intersectionProducts x y
  · rw [if_pos hc]
    exact ⟨List.nodup_singleton _,
      fun hm => any_elt_ne_none_elt ((List.mem_singleton.mp hm).symm), fun _ => rfl⟩
  · rw [if_neg hc]
    refine ⟨canon_nodup _, ?_, ?_⟩
    · intro hm
      rw [mem_canon] at hm
      exact (mem_intersectionProducts.mp hm).1 rfl
    · intro hm
      rw [mem_canon] at hm
      exact absurd hm hc

theorem canonicalInvariants_computeComplement (x : MatchSpecConstraints)
    (hx : ProperGroups x) : CanonicalInvariants (computeComplement x) := by
  unfold computeComplement
  by_cases hg : x.groups = []
  · rw [if_pos hg]
    exact ⟨List.nodup_singleton _,
      fun hm => any_elt_ne_none_elt ((List.mem_singleton.mp hm).symm), fun _ => rfl⟩
  · rw [if_neg hg]
    refine ⟨canon_nodup _, ?_, ?_⟩
    · intro hm
      rw [mem_canon] at hm
      exact (mem_foldl_step_proper x.groups [MatchSpecElement.any] hg _ hm).1 rfl
    · intro hm
      rw [mem_canon] at hm
      exact absurd hm (any_not_mem_foldl x.groups [MatchSpecElement.any] hg hx)

/-- A one-group set satisfies the canonical invariants as soon as its group
is not the sentinel. -/
theorem canonicalInvariants_single {g : MatchSpecElement}
    (h : g ≠ MatchSpecElement.none) :
    CanonicalInvariants ⟨[g]⟩ := by
  refine ⟨List.nodup_singleton _, ?_, ?_⟩
  · intro hm
    exact h (List.mem_singleton.mp hm).symm
  · intro hm
    rw [(List.mem_singleton.mp hm)]

/-- C8 counterexample: complementing the conversion of a match specification
with an empty version range yields a two-group set containing the `any()`
element alongside another group — violating the canonicalization invariant
that `any()` only occurs as the unique group. -/
theorem produced_sets_canonical_invariants_fail :
    (computeComplement (fromMatchSpec
        ⟨Option.some ⟨false, ∅⟩, Option.some 5⟩)).groups.length = 2 ∧
      MatchSpecElement.any ∈ (computeComplement (fromMatchSpec
        ⟨Option.some ⟨false, ∅⟩, Option.some 5⟩)).groups ∧
      ¬ CanonicalInvariants (computeComplement (fromMatchSpec
        ⟨Option.some ⟨false, ∅⟩, Option.some 5⟩)) := by
  refine ⟨by decide, by decide, by decide⟩

/-- C8 (amended): `empty()`, `full()`, `singleton`, conversion from a match
specification, and every intersection satisfy the canonical invariants
unconditionally; a complement satisfies them provided every group of its
input has nonempty version and build-number components.  That properness is
itself guaranteed by every producing operation except conversion from a
match specification with an empty version range — the case of the
counterexample. -/
theorem produced_sets_canonical_invariants :
    (CanonicalInvariants empty ∧ ProperGroups empty) ∧
      (CanonicalInvariants full ∧ ProperGroups full) ∧
      (∀ p, CanonicalInvariants (singleton p) ∧ ProperGroups (singleton p)) ∧
      (∀ ms : MatchSpec, CanonicalInvariants (fromMatchSpec ms) ∧
        (ms.version ≠ Option.some Range.none → ProperGroups (fromMatchSpec ms))) ∧
      (∀ x y, CanonicalInvariants (intersection x y) ∧
        ProperGroups (intersection x y)) ∧
      (∀ x, ProperGroups x → CanonicalInvariants (computeComplement x)) ∧
      (∀ x, ProperGroups (computeComplement x)) := by
  refine ⟨⟨by decide, by decide⟩, ⟨by decide, by decide⟩, ?_, ?_, ?_, ?_, ?_⟩
  · intro p
    constructor
    · refine canonicalInvariants_single ?_
      intro hc
      exact Range.equal_ne_none p.version (congrArg MatchSpecElement.version hc)
    · intro g hg
      rw [List.mem_singleton.mp hg]
      exact ⟨Range.equal_ne_none p.version, Range.equal_ne_none p.build_number⟩
  · intro ms
    constructor
    · refine canonicalInvariants_single ?_
      intro hc
      have hb : (ms.build_number.map Range.equal).getD Range.any = Range.none :=
        congrArg MatchSpecElement.build_number hc
      cases hn : ms.build_number with
      | none =>
        rw [hn] at hb
        simp only [Option.map_none', Option.getD_none] at hb
        exact any_range_ne_none hb
      | some n =>
        rw [hn] at hb
        simp only [Option.map_some', Option.getD_some] at hb
        exact Range.equal_ne_none n hb
    · intro hv g hg
      rw [List.mem_singleton.mp hg]
      refine ⟨?_, ?_⟩
      · show ms.version.getD Range.any ≠ Range.none
        cases hver : ms.version with
        | none =>
          simp only [Option.getD_none]
          exact any_range_ne_none
        | some s =>
          simp only [Option.getD_some]
          intro hc
          exact hv (by rw [hver, hc])
      · show (ms.build_number.map Range.equal).getD Range.any ≠ Range.none
        cases hn : ms.build_number with
        | none =>
          simp only [Option.map_none', Option.getD_none]
          exact any_range_ne_none
        | some n =>
          simp only [Option.map_some', Option.getD_some]
          exact Range.equal_ne_none n
  · intro x y
    exact ⟨canonicalInvariants_intersection x y, properGroups_intersection x y⟩
  · intro x hx
    exact canonicalInvariants_computeComplement x hx
  · intro x
    exact properGroups_computeComplement x

theorem produced_sets_canonical_invariants_witness :
    ProperGroups (singleton ⟨0, 0⟩) ∧
      CanonicalInvariants (computeComplement (singleton ⟨0, 0⟩)) ∧
      ((⟨Option.some (Range.equal 7), Option.some 1⟩ : MatchSpec).version ≠
          Option.some Range.none ∧
        ProperGroups (fromMatchSpec ⟨Option.some (Range.equal 7), Option.some 1⟩)) :=
  ⟨by decide,
    produced_sets_canonical_invariants.2.2.2.2.2.1 (singleton ⟨0, 0⟩) (by decide),
    by decide,
    (produced_sets_canonical_invariants.2.2.2.1
      ⟨Option.some (Range.equal 7), Option.some 1⟩).2 (by decide)⟩

theorem build_number_disjoint_specs_witness :
    ((Option.none : Option (Range ℕ)) ≠ Option.some Range.none ∧ (0 : ℕ) ≠ 1) ∧
      (intersection (fromMatchSpec ⟨Option.none, Option.some 0⟩)
          (fromMatchSpec ⟨Option.none, Option.some 1⟩) = empty ∧
        intersection (fromMatchSpec ⟨Option.none, Option.some 0⟩)
            (fromMatchSpec ⟨Option.none, Option.some 0⟩) =
          fromMatchSpec ⟨Option.none, Option.some 0⟩) :=
  ⟨⟨by decide, by decide⟩,
    build_number_disjoint_specs Option.none 0 1 (by decide) (by decide)⟩

end MatchSpecConstraints
